import Mathlib

/-!
Verification development for the `qp` quantile-parametrization library.

The repository ships the demonstration notebook `docs/notebooks/demo.ipynb`;
the core module (`qp/pdf.py`, `qp/utils.py`) is described by the design
specification.  The definitions below embed that core over `ℚ`: analytic
distributions are triples of rational-valued functions, the quantizer,
the reconstructed density, the `qp.PDF` facade and the divergence engine
are translated as total functions, with fallible operations returning
`Except`.  External numerical primitives (logarithm, square root) are
passed in as function parameters, mirroring the specification's
black-box treatment of numerics.
-/

namespace Qp

/-- Modelled from the spec: the Distribution Capability contract of §3 —
`cdf`, `ppf` (inverse CDF) and `pdf` evaluators; the analytic backing of
`qp`'s truth distributions is absent from `src/`, so only this contract
is embedded. -/
structure Dist where
  cdf : ℚ → ℚ
  ppf : ℚ → ℚ
  pdf : ℚ → ℚ

/-- Modelled from the spec: the error kinds of §7 for the absent
`qp` core (`InvalidArgument`, `MissingTruth`, `MissingData`,
`InsufficientData`, `DivergenceUndefined`). -/
inductive QpError where
  | invalidArgument
  | missingTruth
  | missingData
  | insufficientData
  | divergenceUndefined
deriving DecidableEq

instance {ε α : Type} [DecidableEq ε] [DecidableEq α] : DecidableEq (Except ε α) :=
  fun x y =>
    match x, y with
    | .ok a, .ok b =>
        if h : a = b then .isTrue (by rw [h]) else .isFalse (by simp [h])
    | .error a, .error b =>
        if h : a = b then .isTrue (by rw [h]) else .isFalse (by simp [h])
    | .ok _, .error _ => .isFalse (by simp)
    | .error _, .ok _ => .isFalse (by simp)

/-- Modelled from the spec: §4.1 — `percent` is a valid evenly-spaced
request exactly when it is positive and evenly divides 100, i.e.
`100 / percent` is an integer; for `percent = num/den` in lowest terms
this says `num` divides `100 * den`. -/
def dividesHundred (p : ℚ) : Prop :=
  0 < p.num ∧ (100 * p.den) % p.num.toNat = 0

instance (p : ℚ) : Decidable (dividesHundred p) :=
  inferInstanceAs (Decidable (0 < p.num ∧ (100 * p.den) % p.num.toNat = 0))

/-- Modelled from the spec: the number of equal-probability bins implied
by an evenly-spaced `percent` request, `100 / percent`. -/
def numBins (p : ℚ) : ℕ :=
  (100 * p.den) / p.num.toNat

/-- Modelled from the spec: §4.1 — the interior cut points of the uniform
partition of `(0,1)`: `percent/100, 2·percent/100, …`, excluding `0`
and `1` themselves. -/
def cutPoints (p : ℚ) : List ℚ :=
  (List.range (numBins p - 1)).map (fun i : ℕ => ((i : ℚ) + 1) * p / 100)

/-- Modelled from the spec: §4.1 — the Quantizer.  Given a Distribution
Capability and an evenly-spaced request `percent`, returns the ordered
quantile locations `ppf(cut_i)`, failing with `InvalidArgument` when
`percent` does not evenly divide 100.  (Per the notebook's usage the
result is the flat ordered collection of locations.) -/
def quantizeFn (d : Dist) (p : ℚ) : Except QpError (List ℚ) :=
  if dividesHundred p then .ok ((cutPoints p).map d.ppf) else .error .invalidArgument

/-- Modelled from the spec: §4.2 — the control points of the reconstructed
CDF: each location paired with its implied cumulative-probability cut
point `(i+1)/(N+1)` for `N` evenly spaced quantiles. -/
def impliedPairs (locs : List ℚ) : List (ℚ × ℚ) :=
  List.ofFn (fun i : Fin locs.length =>
    (locs.get i, ((i : ℚ) + 1) / ((locs.length : ℚ) + 1)))

/-- Modelled from the spec: §4.2 — the monotone piecewise-linear CDF
interpolant through the `(location, cut)` control points; the cumulative
function is exactly `cut_i` at each `location_i`. -/
def piecewiseCdf : List (ℚ × ℚ) → ℚ → ℚ
  | [], _ => 0
  | p :: [], _ => p.2
  | p :: q :: tl, x =>
      if x ≤ p.1 then p.2
      else if x ≤ q.1 then p.2 + (q.2 - p.2) * (x - p.1) / (q.1 - p.1)
      else piecewiseCdf (q :: tl) x

/-- Modelled from the spec: §4.2 — the reconstructed density: the local
slope of the CDF interpolant between consecutive quantiles, with the two
outermost quantile gaps defining the tail slopes outside the quantile
range. -/
def piecewiseDensity : List (ℚ × ℚ) → ℚ → ℚ
  | [], _ => 0
  | _ :: [], _ => 0
  | p :: q :: [], _ => (q.2 - p.2) / (q.1 - p.1)
  | p :: q :: r :: tl, x =>
      if x ≤ q.1 then (q.2 - p.2) / (q.1 - p.1)
      else piecewiseDensity (q :: r :: tl) x

/-- Modelled from the spec: §4.2/§4.3 — `approximate` evaluated from a
quantile set alone: the reconstructed density at a point. -/
def approximateFn (locs : List ℚ) (x : ℚ) : ℚ :=
  piecewiseDensity (impliedPairs locs) x

/-- Modelled from the spec: §3/§4.3 — the state of a `qp.PDF` facade: an
optional truth distribution, an optional stored quantile set, and the
lazily built (memoized) reconstructed-density interpolant. -/
structure Facade where
  truth : Option Dist
  quantiles : Option (List ℚ)
  interp : Option (List (ℚ × ℚ))

/-- Modelled from the spec: §4.3 — constructing a facade fails with
`InvalidArgument` when neither the truth distribution nor a quantile set
is supplied. -/
def construct (truth : Option Dist) (quantiles : Option (List ℚ)) :
    Except QpError Facade :=
  match truth, quantiles with
  | none, none => .error .invalidArgument
  | t, q => .ok ⟨t, q, none⟩

/-- Modelled from the spec: §4.3 — `quantize` on the facade: fails with
`MissingTruth` without a truth distribution, otherwise delegates to the
Quantizer; on success it returns the quantile set and stores it on the
facade.  The second component is the facade state after the call. -/
def quantizeOp (F : Facade) (p : ℚ) : Except QpError (List ℚ) × Facade :=
  match F.truth with
  | none => (.error .missingTruth, F)
  | some d =>
      match quantizeFn d p with
      | .error e => (.error e, F)
      | .ok qs => (.ok qs, { F with quantiles := some qs })

/-- Modelled from the spec: §4.2 — building the reconstructed-density
interpolant from a quantile set; fails with `InsufficientData` on fewer
than 2 points. -/
def buildInterp (locs : List ℚ) : Except QpError (List (ℚ × ℚ)) :=
  if locs.length < 2 then .error .insufficientData else .ok (impliedPairs locs)

/-- Modelled from the spec: §4.3 — `approximate` on the facade: with a
truth distribution it evaluates the truth density; otherwise it reuses
the memoized interpolant, lazily building (and storing) it from the
stored quantiles on first use, failing with `MissingData` when neither
truth nor quantiles are available.  The second component is the facade
state after the call. -/
def approximateOp (F : Facade) (x : ℚ) : Except QpError ℚ × Facade :=
  match F.truth with
  | some d => (.ok (d.pdf x), F)
  | none =>
      match F.interp with
      | some pts => (.ok (piecewiseDensity pts x), F)
      | none =>
          match F.quantiles with
          | none => (.error .missingData, F)
          | some locs =>
              match buildInterp locs with
              | .error e => (.error e, F)
              | .ok pts => (.ok (piecewiseDensity pts x), { F with interp := some pts })

/-- Modelled from the spec: §4.4 — the shared evaluation grid: `n` evenly
spaced points spanning `[lower, upper]`. -/
def linspace (lower upper : ℚ) (n : ℕ) : List ℚ :=
  (List.range n).map (fun i : ℕ => lower + (upper - lower) * (i : ℚ) / ((n : ℚ) - 1))

/-- Modelled from the spec: §4.4 — trapezoidal quadrature of sampled
values with uniform spacing `h`. -/
def trapzList (h : ℚ) : List ℚ → ℚ
  | [] => 0
  | _ :: [] => 0
  | y :: z :: tl => h * (y + z) / 2 + trapzList h (z :: tl)

/-- Modelled from the spec: §4.4 step 2 — renormalizing sampled density
values by that density's own numerically integrated mass over the
interval. -/
def normalizeMass (h : ℚ) (ys : List ℚ) : List ℚ :=
  ys.map (fun y => y / trapzList h ys)

/-- Modelled from the spec: §4.4 step 3 — the pointwise KLD integrand
`a·log(a/b)` with the convention that it is `0` wherever `a = 0`. -/
def klIntegrand (logFn : ℚ → ℚ) (a b : ℚ) : ℚ :=
  if a = 0 then 0 else a * logFn (a / b)

/-- Modelled from the spec: §4.4 — `qp.utils.calculate_kl_divergence`:
evaluate both densities on a shared grid over `[lower, upper]`,
renormalize each by its own trapezoidal mass, and integrate the
pointwise integrand by the same quadrature.  The logarithm is the
external numerical primitive `logFn`. -/
def calculate_kl_divergence (logFn : ℚ → ℚ) (n : ℕ) (a b : ℚ → ℚ)
    (lower upper : ℚ) : ℚ :=
  trapzList ((upper - lower) / ((n : ℚ) - 1))
    (List.zipWith (klIntegrand logFn)
      (normalizeMass ((upper - lower) / ((n : ℚ) - 1)) ((linspace lower upper n).map a))
      (normalizeMass ((upper - lower) / ((n : ℚ) - 1)) ((linspace lower upper n).map b)))

/-- Modelled from the spec: §4.4 — the grid mean of the squared pointwise
difference of two densities over `[lower, upper]` (no renormalization). -/
def gridMeanSq (n : ℕ) (a b : ℚ → ℚ) (lower upper : ℚ) : ℚ :=
  (((linspace lower upper n).map (fun x => (a x - b x) ^ 2)).sum) / (n : ℚ)

/-- Modelled from the spec: §4.4 — `qp.utils.calculate_rms`:
`sqrt(mean_over_grid((a(x) - b(x))^2))`, the square root being the
external numerical primitive `sqrtFn`. -/
def calculate_rms (sqrtFn : ℚ → ℚ) (n : ℕ) (a b : ℚ → ℚ)
    (lower upper : ℚ) : ℚ :=
  sqrtFn (gridMeanSq n a b lower upper)

/-- A concrete Distribution Capability used to instantiate theorems: the
uniform distribution on `[-1, 1]`, whose `ppf` is `p ↦ 2p - 1`. -/
def dUnif : Dist :=
  ⟨fun x => (x + 1) / 2, fun p => 2 * p - 1, fun _ => 1 / 2⟩

lemma impliedPairs_map_fst (locs : List ℚ) :
    (impliedPairs locs).map Prod.fst = locs := by
  simp only [impliedPairs, List.map_ofFn]
  exact List.ofFn_get locs

lemma impliedPairs_pairwise (locs : List ℚ) (hs : locs.Pairwise (· < ·)) :
    (impliedPairs locs).Pairwise (fun a b => a.1 < b.1 ∧ a.2 ≤ b.2) := by
  rw [impliedPairs, List.pairwise_ofFn]
  intro i j hij
  refine ⟨List.pairwise_iff_get.mp hs i j hij, ?_⟩
  have hij2 : ((i : ℕ) : ℚ) + 1 ≤ ((j : ℕ) : ℚ) + 1 := by
    have : (i : ℕ) ≤ (j : ℕ) := le_of_lt hij
    exact_mod_cast Nat.succ_le_succ this
  have hpos : (0 : ℚ) < (locs.length : ℚ) + 1 := by positivity
  exact (div_le_div_iff_of_pos_right hpos).mpr hij2

lemma piecewiseCdf_knot : ∀ (pts : List (ℚ × ℚ)),
    (pts.map Prod.fst).Pairwise (· < ·) →
    ∀ pr ∈ pts, piecewiseCdf pts pr.1 = pr.2 := by
  intro pts
  induction pts with
  | nil => intro _ pr hpr; simp at hpr
  | cons p tl ih =>
    intro hs pr hpr
    cases tl with
    | nil =>
      simp at hpr
      subst hpr
      simp [piecewiseCdf]
    | cons q tl2 =>
      have hs1 : ∀ a ∈ (q :: tl2).map Prod.fst, p.1 < a :=
        (List.pairwise_cons.mp (by simpa using hs)).1
      have hs2 : ((q :: tl2).map Prod.fst).Pairwise (· < ·) :=
        (List.pairwise_cons.mp (by simpa using hs)).2
      have hpq : p.1 < q.1 := hs1 q.1 (by simp)
      rcases List.mem_cons.mp hpr with rfl | h2
      · simp [piecewiseCdf]
      · have h1 : p.1 < pr.1 := hs1 pr.1 (List.mem_map_of_mem Prod.fst h2)
        rcases List.mem_cons.mp h2 with rfl | h3
        · have hne : pr.1 - p.1 ≠ 0 := sub_ne_zero.mpr (ne_of_gt h1)
          simp only [piecewiseCdf, if_neg (not_le.mpr h1), if_pos le_rfl]
          rw [mul_div_assoc, div_self hne, mul_one]
          ring
        · have h4 : q.1 < pr.1 :=
            (List.pairwise_cons.mp hs2).1 pr.1 (List.mem_map_of_mem Prod.fst h3)
          simp only [piecewiseCdf, if_neg (not_le.mpr h1), if_neg (not_le.mpr h4)]
          exact ih hs2 pr h2

lemma piecewiseDensity_nonneg : ∀ (pts : List (ℚ × ℚ)),
    pts.Pairwise (fun a b => a.1 < b.1 ∧ a.2 ≤ b.2) →
    ∀ x, 0 ≤ piecewiseDensity pts x := by
  intro pts
  induction pts with
  | nil => intro _ x; simp [piecewiseDensity]
  | cons p tl ih =>
    intro hs x
    cases tl with
    | nil => simp [piecewiseDensity]
    | cons q tl2 =>
      have hpq : p.1 < q.1 ∧ p.2 ≤ q.2 :=
        (List.pairwise_cons.mp hs).1 q (List.mem_cons_self q tl2)
      have hslope : 0 ≤ (q.2 - p.2) / (q.1 - p.1) :=
        div_nonneg (by linarith [hpq.2]) (by linarith [hpq.1])
      cases tl2 with
      | nil => simpa [piecewiseDensity] using hslope
      | cons r tl3 =>
        simp only [piecewiseDensity]
        split
        · exact hslope
        · exact ih (List.Pairwise.of_cons hs) x

lemma cutPoints_pairwise {p : ℚ} (hp : 0 < p) :
    (cutPoints p).Pairwise (· < ·) := by
  unfold cutPoints
  refine List.Pairwise.map _ ?_ (List.pairwise_lt_range _)
  intro a b hab
  have hcast : ((a : ℕ) : ℚ) + 1 < ((b : ℕ) : ℚ) + 1 := by
    exact_mod_cast Nat.succ_lt_succ hab
  exact (div_lt_div_iff_of_pos_right (by norm_num)).mpr ((mul_lt_mul_right hp).mpr hcast)

lemma cutPoints_length (p : ℚ) : (cutPoints p).length = numBins p - 1 := by
  simp [cutPoints]

lemma numBins_mul {p : ℚ} (h : dividesHundred p) :
    (numBins p : ℚ) * p = 100 := by
  obtain ⟨hn, hmod⟩ := h
  have hnat : p.num.toNat ∣ 100 * p.den := Nat.dvd_of_mod_eq_zero hmod
  have hmul : numBins p * p.num.toNat = 100 * p.den := Nat.div_mul_cancel hnat
  have hcast : (numBins p : ℚ) * (p.num.toNat : ℚ) = 100 * (p.den : ℚ) := by
    exact_mod_cast hmul
  have hq : (p.num : ℚ) = (p.num.toNat : ℚ) := by
    exact_mod_cast (Int.toNat_of_nonneg (le_of_lt hn)).symm
  have hden : ((p.den : ℚ)) ≠ 0 := Nat.cast_ne_zero.mpr p.den_nz
  calc (numBins p : ℚ) * p
      = (numBins p : ℚ) * ((p.num : ℚ) / (p.den : ℚ)) := by rw [Rat.num_div_den]
    _ = ((numBins p : ℚ) * (p.num.toNat : ℚ)) / (p.den : ℚ) := by
        rw [hq, mul_div_assoc]
    _ = (100 * (p.den : ℚ)) / (p.den : ℚ) := by rw [hcast]
    _ = 100 := mul_div_cancel_right₀ 100 hden

lemma numBins_pos {p : ℚ} (h : dividesHundred p) : 0 < numBins p := by
  rcases Nat.eq_zero_or_pos (numBins p) with h0 | h1
  · exfalso
    have h100 := numBins_mul h
    rw [h0] at h100
    norm_num at h100
  · exact h1

lemma dividesHundred_pos {p : ℚ} (h : dividesHundred p) : 0 < p :=
  Rat.num_pos.mp h.1

lemma quantizeFn_ok {d : Dist} {p : ℚ} {locs : List ℚ}
    (h : quantizeFn d p = .ok locs) :
    dividesHundred p ∧ locs = (cutPoints p).map d.ppf := by
  by_cases hd : dividesHundred p
  · refine ⟨hd, ?_⟩
    simp only [quantizeFn, if_pos hd, Except.ok.injEq] at h
    exact h.symm
  · simp [quantizeFn, hd] at h

/-- C7: `quantize` fails with `InvalidArgument` exactly when `percent`
does not evenly divide 100; in particular it fails for `percent = 37`. -/
theorem claim7_percent_must_divide_100 (d : Dist) (p : ℚ) :
    ((quantizeFn d p).isOk = true ↔ dividesHundred p) ∧
    quantizeFn d 37 = .error .invalidArgument := by
  constructor
  · by_cases hd : dividesHundred p <;> simp [quantizeFn, hd, Except.isOk, Except.toBool]
  · have h37 : ¬ dividesHundred 37 := by decide
    simp [quantizeFn, h37]

/-- C7 witness: at the concrete input `percent = 37` the quantizer
reports `InvalidArgument`. -/
theorem claim7_witness :
    quantizeFn dUnif 37 = Except.error QpError.invalidArgument :=
  (claim7_percent_must_divide_100 dUnif 37).2

/-- C8: constructing a facade succeeds exactly when at least one of the
truth distribution and the quantile set is supplied, and fails with
`InvalidArgument` exactly when both are absent. -/
theorem claim8_construct_needs_truth_or_quantiles (t : Option Dist)
    (q : Option (List ℚ)) :
    ((construct t q).isOk = true ↔ (t.isSome = true ∨ q.isSome = true)) ∧
    (construct t q = .error .invalidArgument ↔ (t = none ∧ q = none)) := by
  cases t <;> cases q <;> simp [construct, Except.isOk, Except.toBool]

/-- C1: for any truth distribution whose inverse CDF has the standard
normal's odd symmetry (`ppf(1-p) = -ppf(p)`, true of the mean-0 scale-1
normal), `quantize` with `percent = 10` succeeds and returns the
quantile set at exactly the nine interior cut points `0.1, …, 0.9`; the
returned locations are the truth's decile values exactly (hence within
any numerical tolerance), are symmetric about 0 (the reversed list is
the negated list), and the location at cut `0.5` is exactly 0. -/
theorem claim1_decile_quantiles_symmetric (d : Dist)
    (hsym : ∀ p : ℚ, d.ppf (1 - p) = - d.ppf p) :
    quantizeFn d 10 = .ok ((cutPoints 10).map d.ppf) ∧
    cutPoints 10 = [1/10, 2/10, 3/10, 4/10, 5/10, 6/10, 7/10, 8/10, 9/10] ∧
    ((cutPoints 10).map d.ppf).reverse = ((cutPoints 10).map d.ppf).map (fun x => -x) ∧
    d.ppf (5/10) = 0 := by
  have hdiv : dividesHundred 10 := by decide
  have hbins : numBins 10 = 10 := by decide
  have hcuts : cutPoints 10 = [1/10, 2/10, 3/10, 4/10, 5/10, 6/10, 7/10, 8/10, 9/10] := by
    simp only [cutPoints, hbins]
    simp [List.range_succ]
    norm_num
  have hrev : (cutPoints 10).reverse = (cutPoints 10).map (fun p => 1 - p) := by
    rw [hcuts]
    norm_num
  refine ⟨by simp [quantizeFn, hdiv], hcuts, ?_, ?_⟩
  · calc ((cutPoints 10).map d.ppf).reverse
        = (cutPoints 10).reverse.map d.ppf := by
          rw [List.map_reverse]
      _ = ((cutPoints 10).map (fun p => 1 - p)).map d.ppf := by rw [hrev]
      _ = (cutPoints 10).map (fun p => d.ppf (1 - p)) := by
          rw [List.map_map]; rfl
      _ = (cutPoints 10).map (fun p => - d.ppf p) :=
          List.map_congr_left (fun a _ => hsym a)
      _ = ((cutPoints 10).map d.ppf).map (fun x => -x) := by
          rw [List.map_map]; rfl
  · have h5 := hsym (1/2)
    norm_num at h5 ⊢
    linarith

/-- C1 witness: the uniform distribution on `[-1,1]` has the required
odd-symmetric `ppf`, and its decile quantization is as stated. -/
theorem claim1_witness :
    quantizeFn dUnif 10 = .ok ((cutPoints 10).map dUnif.ppf) :=
  (claim1_decile_quantiles_symmetric dUnif (fun p => by
    show 2 * (1 - p) - 1 = -(2 * p - 1)
    ring)).1

/-- C2: for every valid quantile set (at least 2 strictly increasing
locations) and every evaluation point outside the quantile range, the
reconstructed density `approximate` is defined (it is a total function
of the embedding, so no error is raised) and returns a non-negative
rational (hence finite, never NaN or infinity). -/
theorem claim2_approximate_nonneg_outside (locs : List ℚ) (x : ℚ)
    (_hlen : 2 ≤ locs.length) (hsort : locs.Pairwise (· < ·))
    (_hout : (∀ l ∈ locs, x < l) ∨ (∀ l ∈ locs, l < x)) :
    0 ≤ approximateFn locs x :=
  piecewiseDensity_nonneg (impliedPairs locs) (impliedPairs_pairwise locs hsort) x

/-- C2 witness: the point `5` lies outside the quantile set `[0, 1]`,
and the extrapolated density there is non-negative. -/
theorem claim2_witness : 0 ≤ approximateFn [0, 1] 5 :=
  claim2_approximate_nonneg_outside [0, 1] 5 (by simp)
    (by norm_num) (Or.inr (by norm_num))

/-- C3: for any truth distribution with strictly increasing inverse CDF,
`quantize` followed by building the Reconstructed Density gives a CDF
interpolant whose control-point cut values are exactly the original cut
points, and evaluating that CDF at each exact quantile location returns
exactly its cut point (round-trip at the knots, exact hence within any
tolerance). -/
theorem claim3_roundtrip_cdf_at_knots (d : Dist) (percent : ℚ) (locs : List ℚ)
    (hmono : StrictMono d.ppf) (hq : quantizeFn d percent = .ok locs) :
    (impliedPairs locs).map Prod.snd = cutPoints percent ∧
    ∀ pr ∈ impliedPairs locs, piecewiseCdf (impliedPairs locs) pr.1 = pr.2 := by
  obtain ⟨hdiv, hlocs⟩ := quantizeFn_ok hq
  have hp0 : 0 < percent := dividesHundred_pos hdiv
  have hpne : percent ≠ 0 := ne_of_gt hp0
  have hsort : locs.Pairwise (· < ·) := by
    rw [hlocs]
    exact List.Pairwise.map _ (fun a b h => hmono h) (cutPoints_pairwise hp0)
  have hlen : locs.length = numBins percent - 1 := by
    rw [hlocs, List.length_map, cutPoints_length]
  have hlenq : ((locs.length : ℚ)) + 1 = (numBins percent : ℚ) := by
    have h1 : locs.length + 1 = numBins percent := by
      rw [hlen]
      exact Nat.succ_pred_eq_of_pos (numBins_pos hdiv)
    exact_mod_cast h1
  constructor
  · apply List.ext_getElem
    · simp [impliedPairs, cutPoints, hlen]
    · intro i h1 h2
      rw [List.getElem_map]
      simp only [impliedPairs]
      rw [List.getElem_ofFn]
      simp only [cutPoints]
      rw [List.getElem_map, List.getElem_range]
      show ((i : ℚ) + 1) / ((locs.length : ℚ) + 1) = ((i : ℚ) + 1) * percent / 100
      rw [hlenq, ← numBins_mul hdiv]
      exact (mul_div_mul_right _ _ hpne).symm
  · intro pr hpr
    apply piecewiseCdf_knot
    · rw [impliedPairs_map_fst]
      exact hsort
    · exact hpr

/-- C3 witness: the round-trip property instantiated at the uniform
truth on `[-1,1]` quantized at deciles: the reconstructed CDF control
points carry exactly the cut points `0.1, …, 0.9`. -/
theorem claim3_witness :
    (impliedPairs ((cutPoints 10).map dUnif.ppf)).map Prod.snd = cutPoints 10 :=
  (claim3_roundtrip_cdf_at_knots dUnif 10 ((cutPoints 10).map dUnif.ppf)
    (by
      intro a b h
      change 2 * a - 1 < 2 * b - 1
      linarith)
    (by
      unfold quantizeFn
      rw [if_pos (show dividesHundred 10 by decide)])).1

lemma trapzList_smul (h c : ℚ) : ∀ ys : List ℚ,
    trapzList h (ys.map (fun y => c * y)) = c * trapzList h ys := by
  intro ys
  induction ys with
  | nil => simp [trapzList]
  | cons y tl ih =>
    cases tl with
    | nil => simp [trapzList]
    | cons z tl2 =>
      simp only [List.map_cons] at ih ⊢
      simp only [trapzList]
      rw [ih]
      ring

lemma normalizeMass_smul (h c : ℚ) (hc : c ≠ 0) (ys : List ℚ) :
    normalizeMass h (ys.map (fun y => c * y)) = normalizeMass h ys := by
  unfold normalizeMass
  rw [trapzList_smul, List.map_map]
  apply List.map_congr_left
  intro a _
  show c * a / (c * trapzList h ys) = a / trapzList h ys
  exact mul_div_mul_left _ _ hc

/-- C4: the KL-divergence computation renormalizes each density by that
density's own trapezoidal mass over the interval before forming the
integrand (first conjunct, against the definitions); consequently the
result is invariant under rescaling either input density by any nonzero
factor, so truncating an unbounded support to the finite window does
not bias the comparison (second conjunct). -/
theorem claim4_kld_renormalizes_by_own_mass (logFn : ℚ → ℚ) (n : ℕ)
    (a b : ℚ → ℚ) (lower upper c e : ℚ) (hc : c ≠ 0) (he : e ≠ 0) :
    calculate_kl_divergence logFn n a b lower upper =
      trapzList ((upper - lower) / ((n : ℚ) - 1))
        (List.zipWith (klIntegrand logFn)
          (normalizeMass ((upper - lower) / ((n : ℚ) - 1))
            ((linspace lower upper n).map a))
          (normalizeMass ((upper - lower) / ((n : ℚ) - 1))
            ((linspace lower upper n).map b))) ∧
    calculate_kl_divergence logFn n (fun x => c * a x) (fun x => e * b x) lower upper =
      calculate_kl_divergence logFn n a b lower upper := by
  refine ⟨rfl, ?_⟩
  unfold calculate_kl_divergence
  have ha : (linspace lower upper n).map (fun x => c * a x) =
      ((linspace lower upper n).map a).map (fun y => c * y) := by
    rw [List.map_map]
    rfl
  have hb : (linspace lower upper n).map (fun x => e * b x) =
      ((linspace lower upper n).map b).map (fun y => e * y) := by
    rw [List.map_map]
    rfl
  rw [ha, hb, normalizeMass_smul _ _ hc, normalizeMass_smul _ _ he]

/-- C4 witness: rescaling the two constant densities by 2 and 3 leaves
the computed KL divergence unchanged on a concrete grid. -/
theorem claim4_witness :
    calculate_kl_divergence id 3 (fun x => 2 * id x) (fun x => 3 * id x) 0 1 =
      calculate_kl_divergence id 3 id id 0 1 :=
  (claim4_kld_renormalizes_by_own_mass id 3 id id 0 1 2 3
    (by norm_num) (by norm_num)).2

/-- C5: the RMS metric is the square root of the grid mean of the
squared pointwise difference, with no renormalization of either density
(first conjunct, against the definitions), and it is symmetric in its
two density arguments (second conjunct). -/
theorem claim5_rms_sqrt_grid_mean_symmetric (sqrtFn : ℚ → ℚ) (n : ℕ)
    (a b : ℚ → ℚ) (lower upper : ℚ) :
    calculate_rms sqrtFn n a b lower upper =
      sqrtFn ((((linspace lower upper n).map (fun x => (a x - b x) ^ 2)).sum) / (n : ℚ)) ∧
    calculate_rms sqrtFn n a b lower upper = calculate_rms sqrtFn n b a lower upper := by
  refine ⟨rfl, ?_⟩
  unfold calculate_rms gridMeanSq
  have hfun : (fun x => (a x - b x) ^ 2) = (fun x => (b x - a x) ^ 2) :=
    funext fun x => by ring
  rw [hfun]

/-- C9: each facade operation is atomic: whenever `quantize` or
`approximate` fails, the facade state is exactly the state before the
call; on success `quantize` changes only the stored quantile set (to the
returned one), `approximate` never changes the truth or the stored
quantiles, and an `approximate` call on a facade holding a truth
distribution or an already-memoized reconstruction leaves the facade
unchanged. -/
theorem claim9_operations_atomic (F : Facade) (p x : ℚ) (qs : List ℚ) :
    ((quantizeOp F p).1.isOk = false → (quantizeOp F p).2 = F) ∧
    ((quantizeOp F p).2.truth = F.truth ∧ (quantizeOp F p).2.interp = F.interp) ∧
    ((quantizeOp F p).1 = .ok qs → (quantizeOp F p).2.quantiles = some qs) ∧
    ((approximateOp F x).1.isOk = false → (approximateOp F x).2 = F) ∧
    ((approximateOp F x).2.truth = F.truth ∧
      (approximateOp F x).2.quantiles = F.quantiles) ∧
    ((F.truth.isSome = true ∨ F.interp.isSome = true) → (approximateOp F x).2 = F) := by
  obtain ⟨t, q, itp⟩ := F
  cases t with
  | some d =>
    cases hqf : quantizeFn d p with
    | error e => simp [quantizeOp, approximateOp, hqf, Except.isOk, Except.toBool]
    | ok qs2 =>
      simp [quantizeOp, approximateOp, hqf, Except.isOk, Except.toBool]
  | none =>
    cases itp with
    | some pts => simp [quantizeOp, approximateOp, Except.isOk, Except.toBool]
    | none =>
      cases q with
      | none => simp [quantizeOp, approximateOp, Except.isOk, Except.toBool]
      | some locs =>
        cases hb : buildInterp locs with
        | error e => simp [quantizeOp, approximateOp, hb, Except.isOk, Except.toBool]
        | ok pts => simp [quantizeOp, approximateOp, hb, Except.isOk, Except.toBool]

/-- C9 witness: on the empty facade, `quantize` fails (no truth) and
leaves the facade state exactly unchanged. -/
theorem claim9_witness :
    (quantizeOp (Facade.mk none none none) 10).2 = Facade.mk none none none :=
  (claim9_operations_atomic (Facade.mk none none none) 10 0 []).1 (by decide)

lemma sorted_head_le {a : ℚ} {tl : List ℚ} (hs : (a :: tl).Pairwise (· < ·)) :
    ∀ l ∈ a :: tl, a ≤ l := by
  intro l hl
  rcases List.mem_cons.mp hl with rfl | h
  · exact le_refl l
  · exact le_of_lt ((List.pairwise_cons.mp hs).1 l h)

lemma sorted_le_getLast : ∀ (a : ℚ) (tl : List ℚ),
    (a :: tl).Pairwise (· < ·) →
    ∀ l ∈ a :: tl, l ≤ (a :: tl).getLast (List.cons_ne_nil a tl) := by
  intro a tl
  induction tl generalizing a with
  | nil =>
    intro _ l hl
    simp at hl
    subst hl
    simp [List.getLast]
  | cons b tl2 ih =>
    intro hs l hl
    have hlast : (a :: b :: tl2).getLast (List.cons_ne_nil a (b :: tl2)) =
        (b :: tl2).getLast (List.cons_ne_nil b tl2) :=
      List.getLast_cons (List.cons_ne_nil b tl2)
    rcases List.mem_cons.mp hl with rfl | h2
    · have hltb := (List.pairwise_cons.mp hs).1
      have hmem := List.getLast_mem (List.cons_ne_nil b tl2)
      rw [hlast]
      exact le_of_lt (hltb _ hmem)
    · rw [hlast]
      exact ih b (List.pairwise_cons.mp hs).2 l h2

/-- C10: the value returned by `quantize` is the flat ordered list of
quantile locations (not pairs); it is strictly sorted, so with at least
two points its minimum and maximum are the smallest and largest
locations and form a nonempty integration interval; and the returned
value is accepted unchanged as the `quantiles` argument of a new facade
on which `approximate` (and hence both grid metrics, which are total
functions of two densities) succeeds. -/
theorem claim10_quantize_returns_flat_locations (d : Dist) (p : ℚ)
    (locs : List ℚ) (x : ℚ)
    (hmono : StrictMono d.ppf) (hq : quantizeFn d p = .ok locs) :
    locs = (cutPoints p).map d.ppf ∧
    locs.Pairwise (· < ·) ∧
    (2 ≤ locs.length →
      ∃ lo hi, lo ∈ locs ∧ hi ∈ locs ∧ lo < hi ∧ ∀ l ∈ locs, lo ≤ l ∧ l ≤ hi) ∧
    construct none (some locs) = .ok (Facade.mk none (some locs) none) ∧
    (2 ≤ locs.length →
      ((approximateOp (Facade.mk none (some locs) none) x).1).isOk = true) := by
  obtain ⟨hdiv, hlocs⟩ := quantizeFn_ok hq
  have hsort : locs.Pairwise (· < ·) := by
    rw [hlocs]
    exact List.Pairwise.map _ (fun s t h => hmono h)
      (cutPoints_pairwise (dividesHundred_pos hdiv))
  refine ⟨hlocs, hsort, ?_, rfl, ?_⟩
  · intro h2
    cases locs with
    | nil => simp at h2
    | cons a tl =>
      cases tl with
      | nil => simp at h2
      | cons b tl2 =>
        refine ⟨a, (a :: b :: tl2).getLast (List.cons_ne_nil a (b :: tl2)),
          List.mem_cons_self a (b :: tl2),
          List.getLast_mem (List.cons_ne_nil a (b :: tl2)), ?_, ?_⟩
        · have hmem := List.getLast_mem (List.cons_ne_nil b tl2)
          have hlast : (a :: b :: tl2).getLast (List.cons_ne_nil a (b :: tl2)) =
              (b :: tl2).getLast (List.cons_ne_nil b tl2) :=
            List.getLast_cons (List.cons_ne_nil b tl2)
          rw [hlast]
          exact (List.pairwise_cons.mp hsort).1 _ hmem
        · intro l hl
          exact ⟨sorted_head_le hsort l hl, sorted_le_getLast a (b :: tl2) hsort l hl⟩
  · intro h2
    have hnot : ¬ locs.length < 2 := not_lt.mpr h2
    simp [approximateOp, buildInterp, hnot, Except.isOk, Except.toBool]

/-- C10 witness: the decile quantile list of the uniform truth on
`[-1,1]` is accepted unchanged as the `quantiles` argument of a new
facade. -/
theorem claim10_witness :
    construct none (some ((cutPoints 10).map dUnif.ppf)) =
      .ok (Facade.mk none (some ((cutPoints 10).map dUnif.ppf)) none) :=
  (claim10_quantize_returns_flat_locations dUnif 10 ((cutPoints 10).map dUnif.ppf) 0
    (by
      intro s t h
      change 2 * s - 1 < 2 * t - 1
      linarith)
    (by
      unfold quantizeFn
      rw [if_pos (show dividesHundred 10 by decide)])).2.2.2.1

end Qp
